import Mathlib

/-!
Verification of the change-detection core of the KNPS availability monitor.

The Python sources (`monitor_all.py`, `github_monitor.py`) are shallowly
embedded below: pure fragments become Lean functions, the Python `dict`
(insertion-ordered, update-in-place) becomes an ordered association list,
`datetime` date validation and `weekday()` become explicit proleptic
Gregorian calendar arithmetic, and the regular-expression scans of the
parsers become explicit character-list matchers with the same
leftmost-match, greedy semantics on the concrete patterns used.
External effects (Selenium fetching, Telegram delivery, the filesystem and
`json.load`) are modelled as explicit inputs: raw page text is a `String`
argument, `datetime.now()` is a `String` argument, and the stored snapshot
plus its JSON decoder are arguments of the state loader.
-/

set_option maxHeartbeats 1000000
set_option maxRecDepth 4000

namespace KNPS

/-! ## Calendar arithmetic (Python `datetime`)

`datetime(year, month, day)` in the proleptic Gregorian calendar:
construction fails (ValueError) outside `1 ≤ year ≤ 9999` or for a day
out of range for the month, and `weekday()` returns Monday=0 .. Sunday=6.
-/

def isLeap (y : Nat) : Bool :=
  (y % 4 == 0 && y % 100 != 0) || y % 400 == 0

def daysInMonth (y m : Nat) : Nat :=
  if m = 1 then 31 else if m = 2 then (if isLeap y then 29 else 28)
  else if m = 3 then 31 else if m = 4 then 30 else if m = 5 then 31
  else if m = 6 then 30 else if m = 7 then 31 else if m = 8 then 31
  else if m = 9 then 30 else if m = 10 then 31 else if m = 11 then 30
  else 31

/-- Days in year `y` strictly before month `m` (for valid `1 ≤ m ≤ 12`). -/
def daysBeforeMonth (y m : Nat) : Nat :=
  let base :=
    if m = 1 then 0 else if m = 2 then 31 else if m = 3 then 59
    else if m = 4 then 90 else if m = 5 then 120 else if m = 6 then 151
    else if m = 7 then 181 else if m = 8 then 212 else if m = 9 then 243
    else if m = 10 then 273 else if m = 11 then 304 else 334
  if 2 < m && isLeap y then base + 1 else base

/-- Days strictly before January 1 of year `y` counted from year 1. -/
def daysBeforeYear (y : Nat) : Nat :=
  365 * (y - 1) + ((y - 1) / 4 + (y - 1) / 400) - (y - 1) / 100

/-- Proleptic Gregorian ordinal; `toOrdinal 1 1 1 = 1`. -/
def toOrdinal (y m d : Nat) : Nat :=
  daysBeforeYear y + daysBeforeMonth y m + d

/-- Python `datetime(y, m, d).weekday()`: Monday = 0, ..., Sunday = 6. -/
def pyWeekday (y m d : Nat) : Nat :=
  (toOrdinal y m d + 6) % 7

/-- Whether `datetime(y, m, d)` constructs without raising `ValueError`. -/
def pyValidDate (y m d : Nat) : Bool :=
  1 ≤ y && y ≤ 9999 && 1 ≤ m && m ≤ 12 && 1 ≤ d && d ≤ daysInMonth y m

/-! ## Data model -/

/-- A calendar date, the structured content of the `YYYY-MM-DD` strings the
Python code builds with `f"{self.target_year}-{month:02d}-{day:02d}"`. -/
structure YMD where
  y : Nat
  m : Nat
  d : Nat
deriving DecidableEq, Repr

/-- Python `"{:02d}".format n`. -/
def pad2 (n : Nat) : String :=
  if n < 10 then "0" ++ Nat.repr n else Nat.repr n

/-- The `YYYY-MM-DD` rendering used throughout the Python code. -/
def dateStr (x : YMD) : String :=
  Nat.repr x.y ++ "-" ++ pad2 x.m ++ "-" ++ pad2 x.d

/-- One availability record as built by the parsers:
`{'date': ..., 'weekday': ..., 'remaining': ...}`. -/
structure AvRec where
  date : YMD
  weekday : String
  remaining : Int
deriving DecidableEq, Repr

/-- `self.weekend_days = [4, 5]` (Friday, Saturday). -/
def weekendDays : List Nat := [4, 5]

/-- `"금요일" if weekday_num == 4 else "토요일"`. -/
def weekdayName (wd : Nat) : String :=
  if wd = 4 then "금요일" else "토요일"

/-- `self.target_year = 2025`. -/
def targetYear : Nat := 2025

/-! ## Python `dict` model

A Python `dict` iterates in insertion order; assigning to an existing key
replaces the value in place, assigning to a fresh key appends at the end.
-/

/-- Insertion-ordered dictionary: entries in iteration order. -/
abbrev ODict (α β : Type) := List (α × β)

/-- Python `d[k]`, as an `Option` (first entry with the key). -/
def odLookup {α β : Type} [DecidableEq α] : ODict α β → α → Option β
  | [], _ => none
  | (k0, v0) :: rest, k => if k0 = k then some v0 else odLookup rest k

/-- Python `d[k] = v`: replace in place if present, else append. -/
def odSet {α β : Type} [DecidableEq α] : ODict α β → α → β → ODict α β
  | [], k, v => [(k, v)]
  | (k0, v0) :: rest, k, v =>
    if k0 = k then (k0, v) :: rest else (k0, v0) :: odSet rest k v

/-- The keys of a dictionary in iteration order. -/
def odKeys {α β : Type} (d : ODict α β) : List α := d.map Prod.fst

/-- All keys distinct (holds for every genuinely built `dict`). -/
def KeysNodup {α β : Type} (d : ODict α β) : Prop := (odKeys d).Nodup

@[simp] theorem odKeys_nil {α β : Type} : odKeys ([] : ODict α β) = [] := rfl

@[simp] theorem odKeys_cons {α β : Type} (hd : α × β) (tl : ODict α β) :
    odKeys (hd :: tl) = hd.1 :: odKeys tl := rfl

theorem odLookup_odSet {α β : Type} [DecidableEq α]
    (d : ODict α β) (k k' : α) (v : β) :
    odLookup (odSet d k v) k' = if k' = k then some v else odLookup d k' := by
  induction d with
  | nil =>
    by_cases h : k' = k
    · simp [odSet, odLookup, h]
    · have h' : ¬ k = k' := fun hh => h hh.symm
      simp [odSet, odLookup, h, h']
  | cons hd tl ih =>
    obtain ⟨k0, v0⟩ := hd
    by_cases h0 : k0 = k
    · subst h0
      by_cases h : k' = k0
      · subst h
        simp [odSet, odLookup]
      · have h' : ¬ k0 = k' := fun hh => h hh.symm
        simp [odSet, odLookup, h, h']
    · by_cases h : k' = k0
      · subst h
        simp [odSet, odLookup, h0]
      · have h' : ¬ k0 = k' := fun hh => h hh.symm
        simp [odSet, odLookup, h0, h, h', ih]

theorem mem_odSet {α β : Type} [DecidableEq α]
    {d : ODict α β} {k : α} {v : β} {kv : α × β}
    (h : kv ∈ odSet d k v) : kv ∈ d ∨ kv = (k, v) := by
  induction d with
  | nil =>
    simp [odSet] at h
    simp [h]
  | cons hd tl ih =>
    obtain ⟨k0, v0⟩ := hd
    by_cases h0 : k0 = k
    · subst h0
      simp [odSet] at h
      rcases h with h | h
      · right; simp [h]
      · left; simp [h]
    · simp only [odSet, if_neg h0] at h
      rcases List.mem_cons.mp h with h | h
      · left
        simp [h]
      · rcases ih h with h' | h'
        · left; exact List.mem_cons_of_mem _ h'
        · right; exact h'

theorem odKeys_odSet_of_not_mem {α β : Type} [DecidableEq α]
    {d : ODict α β} {k : α} (v : β) (h : k ∉ odKeys d) :
    odKeys (odSet d k v) = odKeys d ++ [k] := by
  induction d with
  | nil => simp [odSet]
  | cons hd tl ih =>
    obtain ⟨k0, v0⟩ := hd
    simp only [odKeys_cons, List.mem_cons, not_or] at h
    have h0 : ¬ k0 = k := fun hh => h.1 hh.symm
    simp [odSet, h0, ih h.2]

theorem odKeys_odSet_of_mem {α β : Type} [DecidableEq α]
    {d : ODict α β} {k : α} (v : β) (h : k ∈ odKeys d) :
    odKeys (odSet d k v) = odKeys d := by
  induction d with
  | nil => simp at h
  | cons hd tl ih =>
    obtain ⟨k0, v0⟩ := hd
    by_cases h0 : k0 = k
    · simp [odSet, h0]
    · simp only [odKeys_cons, List.mem_cons] at h
      rcases h with h | h
      · exact absurd h.symm h0
      · simp [odSet, h0, ih h]

theorem keysNodup_odSet {α β : Type} [DecidableEq α]
    {d : ODict α β} (k : α) (v : β) (h : KeysNodup d) :
    KeysNodup (odSet d k v) := by
  by_cases hk : k ∈ odKeys d
  · unfold KeysNodup
    rw [odKeys_odSet_of_mem v hk]
    exact h
  · unfold KeysNodup
    rw [odKeys_odSet_of_not_mem v hk]
    refine List.Nodup.append h (List.nodup_singleton k) ?_
    intro a ha hb
    rw [List.mem_singleton] at hb
    subst hb
    exact hk ha

theorem odLookup_isSome_of_mem {α β : Type} [DecidableEq α]
    {d : ODict α β} {k : α} {v : β} (h : (k, v) ∈ d) :
    (odLookup d k).isSome := by
  induction d with
  | nil => simp at h
  | cons hd tl ih =>
    obtain ⟨k0, v0⟩ := hd
    rcases List.mem_cons.mp h with h | h
    · cases h
      simp [odLookup]
    · by_cases h0 : k0 = k
      · simp [odLookup, h0]
      · simp only [odLookup, if_neg h0]
        exact ih h

theorem odLookup_eq_none_iff {α β : Type} [DecidableEq α]
    (d : ODict α β) (k : α) :
    odLookup d k = none ↔ k ∉ odKeys d := by
  induction d with
  | nil => simp [odLookup]
  | cons hd tl ih =>
    obtain ⟨k0, v0⟩ := hd
    by_cases h0 : k0 = k
    · subst h0
      simp [odLookup]
    · have h0' : ¬ k = k0 := fun hh => h0 hh.symm
      simp [odLookup, h0, h0', ih]

theorem odLookup_eq_some_of_mem_nodup {α β : Type} [DecidableEq α]
    {d : ODict α β} {k : α} {v : β} (hnd : KeysNodup d) (h : (k, v) ∈ d) :
    odLookup d k = some v := by
  induction d with
  | nil => simp at h
  | cons hd0 tl ih =>
    obtain ⟨k0, v0⟩ := hd0
    unfold KeysNodup at hnd
    rw [odKeys_cons] at hnd
    rcases List.mem_cons.mp h with h | h
    · cases h
      simp [odLookup]
    · have hk0 : ¬ k0 = k := by
        intro he
        subst he
        have hm : (k0, v).1 ∈ List.map Prod.fst tl := List.mem_map_of_mem Prod.fst h
        exact (List.nodup_cons.mp hnd).1 hm
      simp only [odLookup, if_neg hk0]
      exact ih (List.nodup_cons.mp hnd).2 h

theorem mem_value_unique_nodup {α β : Type} [DecidableEq α]
    {d : ODict α β} {k : α} {v v' : β} (hnd : KeysNodup d)
    (h : (k, v) ∈ d) (h' : (k, v') ∈ d) : v = v' := by
  have h1 := odLookup_eq_some_of_mem_nodup hnd h
  have h2 := odLookup_eq_some_of_mem_nodup hnd h'
  rw [h1] at h2
  exact (Option.some.inj h2)

/-! ## Parser of `monitor_all.parse_weekend_availability`

The Python code runs
`re.findall(r'(\d{1,2})\n([월화수목금토일])\n생활관 : 잔여 (\d+) 개', page_text)`
and then filters each match.  The scan below reproduces `findall`'s
leftmost, non-overlapping matching with the greedy `\d{1,2}` and `\d+`
of this concrete pattern.
-/

def isDigitCh (c : Char) : Bool := '0' ≤ c && c ≤ '9'

def digitVal (c : Char) : Nat := c.toNat - '0'.toNat

def digitsVal (ds : List Char) : Nat :=
  ds.foldl (fun acc c => 10 * acc + digitVal c) 0

/-- The character class `[월화수목금토일]`. -/
def weekGlyphs : List Char := ['월', '화', '수', '목', '금', '토', '일']

/-- Match a literal pattern at the head of the text; rest on success. -/
def matchLit : List Char → List Char → Option (List Char)
  | [], t => some t
  | _ :: _, [] => none
  | p :: ps, c :: cs => if c = p then matchLit ps cs else none

def remainLit : List Char := "생활관 : 잔여 ".data

def gaeLit : List Char := " 개".data

/-- Match `\n([월화수목금토일])\n생활관 : 잔여 (\d+) 개` at this position,
returning the weekday glyph, the remaining count and the rest. -/
def matchAfterDay : List Char → Option (Char × Nat × List Char)
  | '\n' :: w :: '\n' :: rest =>
    if w ∈ weekGlyphs then
      match matchLit remainLit rest with
      | some r1 =>
        let ds := r1.takeWhile isDigitCh
        if ds.isEmpty then none
        else
          match matchLit gaeLit (r1.dropWhile isDigitCh) with
          | some r2 => some (w, digitsVal ds, r2)
          | none => none
      | none => none
    else none
  | _ => none

/-- One candidate regex match: (day, weekday glyph, remaining). -/
abbrev Cand := Nat × Char × Nat

/-- The one-digit-day reading of the pattern at this position. -/
def matchAtOne (c1 : Char) (cs : List Char) : Option (Cand × List Char) :=
  (matchAfterDay cs).map (fun x => ((digitVal c1, x.1, x.2.1), x.2.2))

/-- Try the whole pattern at this position: greedy `\d{1,2}` (two digits
first, one digit on backtrack), then `matchAfterDay`. -/
def matchAt : List Char → Option (Cand × List Char)
  | [] => none
  | [c1] => if isDigitCh c1 then matchAtOne c1 [] else none
  | c1 :: c2 :: cs2 =>
    if isDigitCh c1 then
      if isDigitCh c2 then
        match matchAfterDay cs2 with
        | some x => some ((10 * digitVal c1 + digitVal c2, x.1, x.2.1), x.2.2)
        | none => matchAtOne c1 (c2 :: cs2)
      else matchAtOne c1 (c2 :: cs2)
    else none

theorem dropWhile_length_le {α : Type} (p : α → Bool) (l : List α) :
    (l.dropWhile p).length ≤ l.length := by
  induction l with
  | nil => simp
  | cons c cs ih =>
    by_cases h : p c
    · simp only [List.dropWhile_cons, h, if_true]
      exact Nat.le_succ_of_le ih
    · simp [List.dropWhile_cons, h]

theorem matchLit_length_le {p t r : List Char} (h : matchLit p t = some r) :
    r.length ≤ t.length := by
  induction p generalizing t with
  | nil =>
    simp [matchLit] at h
    simp [h]
  | cons p0 ps ih =>
    cases t with
    | nil => simp [matchLit] at h
    | cons c cs =>
      by_cases hc : c = p0
      · simp only [matchLit, if_pos hc] at h
        exact Nat.le_succ_of_le (ih h)
      · simp [matchLit, hc] at h

theorem matchAfterDay_length_le {cs : List Char} {w : Char} {n : Nat}
    {rest : List Char} (h : matchAfterDay cs = some (w, n, rest)) :
    rest.length ≤ cs.length := by
  match cs with
  | [] => simp [matchAfterDay] at h
  | [c] => simp [matchAfterDay] at h
  | [c1, c2] => simp [matchAfterDay] at h
  | c1 :: c2 :: c3 :: rest0 =>
    by_cases h1 : c1 = '\n'
    · by_cases h3 : c3 = '\n'
      · subst h1; subst h3
        simp only [matchAfterDay] at h
        by_cases hw : c2 ∈ weekGlyphs
        · rw [if_pos hw] at h
          cases hlit : matchLit remainLit rest0 with
          | none => rw [hlit] at h; simp at h
          | some r1 =>
            rw [hlit] at h
            simp only at h
            by_cases hds : (r1.takeWhile isDigitCh).isEmpty
            · rw [if_pos hds] at h; simp at h
            · rw [if_neg hds] at h
              cases hlit2 : matchLit gaeLit (r1.dropWhile isDigitCh) with
              | none => rw [hlit2] at h; simp at h
              | some r2 =>
                rw [hlit2] at h
                simp only [Option.some.injEq, Prod.mk.injEq] at h
                have hr2 : r2 = rest := h.2.2
                subst hr2
                have e1 := matchLit_length_le hlit2
                have e2 := dropWhile_length_le isDigitCh r1
                have e3 := matchLit_length_le hlit
                simp only [List.length_cons]
                omega
        · rw [if_neg hw] at h; simp at h
      · have : matchAfterDay (c1 :: c2 :: c3 :: rest0) = none := by
          subst h1
          simp only [matchAfterDay]
          split
          · rename_i heq
            injection heq with e1 heq
            injection heq with e2 heq
            injection heq with e3 _
            exact absurd e3 h3
          · rfl
        rw [this] at h; simp at h
    · have : matchAfterDay (c1 :: c2 :: c3 :: rest0) = none := by
        simp only [matchAfterDay]
        split
        · rename_i heq
          injection heq with e1 _
          exact absurd e1 h1
        · rfl
      rw [this] at h; simp at h

theorem matchAtOne_length_le {c1 : Char} {cs : List Char} {cand : Cand}
    {rest : List Char} (h : matchAtOne c1 cs = some (cand, rest)) :
    rest.length ≤ cs.length := by
  unfold matchAtOne at h
  cases hmd : matchAfterDay cs with
  | none => rw [hmd] at h; simp at h
  | some x =>
    rw [hmd] at h
    simp only [Option.map_some', Option.some.injEq, Prod.mk.injEq] at h
    have hx : matchAfterDay cs = some (x.1, x.2.1, x.2.2) := by rw [hmd]
    have := matchAfterDay_length_le hx
    have hr : x.2.2 = rest := h.2
    subst hr
    exact this

theorem matchAt_length_lt {l : List Char} {cand : Cand} {rest : List Char}
    (h : matchAt l = some (cand, rest)) : rest.length < l.length := by
  match l with
  | [] => simp [matchAt] at h
  | [c1] =>
    simp only [matchAt] at h
    by_cases hd : isDigitCh c1
    · rw [if_pos hd] at h
      have := matchAtOne_length_le h
      simp only [List.length_nil, List.length_cons] at this ⊢
      omega
    · rw [if_neg hd] at h
      simp at h
  | c1 :: c2 :: cs2 =>
    simp only [matchAt] at h
    by_cases hd : isDigitCh c1
    · rw [if_pos hd] at h
      by_cases hd2 : isDigitCh c2
      · rw [if_pos hd2] at h
        cases hmd : matchAfterDay cs2 with
        | none =>
          rw [hmd] at h
          have := matchAtOne_length_le h
          simp only [List.length_cons] at this ⊢
          omega
        | some x =>
          rw [hmd] at h
          simp only [Option.some.injEq, Prod.mk.injEq] at h
          have hx : matchAfterDay cs2 = some (x.1, x.2.1, x.2.2) := by rw [hmd]
          have := matchAfterDay_length_le hx
          have hr : x.2.2 = rest := h.2
          subst hr
          simp only [List.length_cons] at this ⊢
          omega
      · rw [if_neg hd2] at h
        have := matchAtOne_length_le h
        simp only [List.length_cons] at this ⊢
        omega
    · rw [if_neg hd] at h
      simp at h

/-- `re.findall` scan with explicit fuel (one unit per text position;
`matchAt` always consumes at least one character, so `l.length` units
suffice — `findall_cons` below certifies the intended recurrence). -/
def findallGo : Nat → List Char → List Cand
  | 0, _ => []
  | _ + 1, [] => []
  | fuel + 1, c :: cs =>
    match matchAt (c :: cs) with
    | some x => x.1 :: findallGo fuel x.2
    | none => findallGo fuel cs

/-- `re.findall`: scan left to right, taking non-overlapping matches. -/
def findall (l : List Char) : List Cand := findallGo l.length l

theorem findallGo_eq (n : Nat) :
    ∀ l : List Char, l.length ≤ n → findallGo n l = findall l := by
  induction n using Nat.strong_induction_on with
  | _ n ih =>
    intro l hl
    cases l with
    | nil => cases n <;> rfl
    | cons c cs =>
      cases n with
      | zero => simp at hl
      | succ m =>
        have hm' : cs.length ≤ m := by
          simp only [List.length_cons] at hl
          omega
        show (match matchAt (c :: cs) with
            | some x => x.1 :: findallGo m x.2
            | none => findallGo m cs) =
          (match matchAt (c :: cs) with
            | some x => x.1 :: findallGo cs.length x.2
            | none => findallGo cs.length cs)
        cases hmt : matchAt (c :: cs) with
        | some x =>
          have hlt : x.2.length < (c :: cs).length :=
            matchAt_length_lt (show matchAt (c :: cs) = some (x.1, x.2) by
              rw [hmt])
          simp only [List.length_cons] at hlt
          show x.1 :: findallGo m x.2 = x.1 :: findallGo cs.length x.2
          rw [ih m (Nat.lt_succ_self m) x.2 (by omega)]
          rw [ih cs.length (Nat.lt_succ_of_le hm') x.2 (by omega)]
        | none =>
          show findallGo m cs = findallGo cs.length cs
          rw [ih m (Nat.lt_succ_self m) cs hm']
          rw [ih cs.length (Nat.lt_succ_of_le hm') cs (Nat.le_refl _)]

/-- `findall` satisfies the `re.findall` recurrence: at each position take
the match if one starts here and continue after it, else move one
character right. -/
theorem findall_cons (c : Char) (cs : List Char) :
    findall (c :: cs) =
      match matchAt (c :: cs) with
      | some x => x.1 :: findall x.2
      | none => findall cs := by
  show (match matchAt (c :: cs) with
      | some x => x.1 :: findallGo cs.length x.2
      | none => findallGo cs.length cs) = _
  cases hmt : matchAt (c :: cs) with
  | some x =>
    have hlt : x.2.length < (c :: cs).length :=
      matchAt_length_lt (show matchAt (c :: cs) = some (x.1, x.2) by rw [hmt])
    simp only [List.length_cons] at hlt
    show x.1 :: findallGo cs.length x.2 = x.1 :: findall x.2
    rw [findallGo_eq cs.length x.2 (by omega)]
  | none =>
    show findallGo cs.length cs = findall cs
    rw [findallGo_eq cs.length cs (Nat.le_refl _)]

/-- The per-match loop of `parse_weekend_availability` (monitor_all.py
lines 122-139): validate the date with `datetime`, keep weekend days with
a positive remaining count, in match order. -/
def parseLoop (month : Nat) : List Cand → List AvRec
  | [] => []
  | (day, _, remaining) :: rest =>
    if pyValidDate targetYear month day then
      let wd := pyWeekday targetYear month day
      if wd ∈ weekendDays ∧ remaining > 0 then
        ⟨⟨targetYear, month, day⟩, weekdayName wd, Int.ofNat remaining⟩ ::
          parseLoop month rest
      else parseLoop month rest
    else parseLoop month rest

/-- `monitor_all.ComprehensiveParkMonitor.parse_weekend_availability`. -/
def parse_weekend_availability (page_text : String) (month : Nat) :
    List AvRec :=
  parseLoop month (findall page_text.data)

/-- The record produced by one candidate match, if it survives the
date-validity, weekend and positivity filters. -/
def candToRec (month : Nat) (c : Cand) : Option AvRec :=
  if pyValidDate targetYear month c.1 then
    let wd := pyWeekday targetYear month c.1
    if wd ∈ weekendDays ∧ c.2.2 > 0 then
      some ⟨⟨targetYear, month, c.1⟩, weekdayName wd, Int.ofNat c.2.2⟩
    else none
  else none

theorem parseLoop_eq_filterMap (month : Nat) (l : List Cand) :
    parseLoop month l = l.filterMap (candToRec month) := by
  induction l with
  | nil => rfl
  | cons c rest ih =>
    obtain ⟨day, w, remaining⟩ := c
    by_cases h1 : pyValidDate targetYear month day
    · by_cases h2 : pyWeekday targetYear month day ∈ weekendDays ∧ remaining > 0
      · simp [parseLoop, candToRec, h1, h2, ih, List.filterMap_cons]
      · simp [parseLoop, candToRec, h1, h2, ih, List.filterMap_cons]
    · simp [parseLoop, candToRec, h1, ih, List.filterMap_cons]

/-! ## Old parser (`github_monitor.parse_weekend_availability_old`)

Line-based scan: a line that strips to a bare 1-2 digit number is a day
candidate; the next nine lines are searched for the first occurrence of
`생활관\s*:\s*잔여\s*(\d+)\s*개`.
-/

/-- Python `\s` (the ASCII whitespace characters). -/
def pySpace (c : Char) : Bool :=
  c = ' ' || c = '\t' || c = '\n' || c = '\r' || c = '\x0b' || c = '\x0c'

/-- Python `str.strip()`. -/
def pyStrip (l : List Char) : List Char :=
  ((l.dropWhile pySpace).reverse.dropWhile pySpace).reverse

/-- `re.match(r'^\d{1,2}$', line.strip())` succeeds. -/
def isDayLine (l : List Char) : Bool :=
  let s := pyStrip l
  !s.isEmpty && s.length ≤ 2 && s.all isDigitCh

/-- Match `생활관\s*:\s*잔여\s*(\d+)\s*개` at this position, returning the
captured count. -/
def matchRemainAt (l : List Char) : Option Nat := do
  let r1 ← matchLit "생활관".data l
  let r3 ← matchLit [':'] (r1.dropWhile pySpace)
  let r5 ← matchLit "잔여".data (r3.dropWhile pySpace)
  let r6 := r5.dropWhile pySpace
  let ds := r6.takeWhile isDigitCh
  if ds.isEmpty then none
  else do
    let _ ← matchLit "개".data ((r6.dropWhile isDigitCh).dropWhile pySpace)
    some (digitsVal ds)

/-- `re.search`: the capture of the leftmost match, if any. -/
def searchRemain : List Char → Option Nat
  | [] => none
  | c :: cs =>
    match matchRemainAt (c :: cs) with
    | some n => some n
    | none => searchRemain cs

/-- First line of the forward window with a match, as in
`for j in range(i+1, min(len(lines), i+10)): ... break`. -/
def windowRemain : List (List Char) → Option Nat
  | [] => none
  | l :: rest =>
    match searchRemain l with
    | some n => some n
    | none => windowRemain rest

/-- The indexed loop of `parse_weekend_availability_old` (github_monitor.py
lines 259-283); at line `i` the forward window is the next nine lines. -/
def oldLoop (month : Nat) : List (List Char) → List AvRec
  | [] => []
  | line :: rest =>
    if isDayLine line then
      match windowRemain (rest.take 9) with
      | some remaining =>
        let day := digitsVal (pyStrip line)
        if pyValidDate targetYear month day then
          let wd := pyWeekday targetYear month day
          if wd ∈ weekendDays ∧ remaining > 0 then
            ⟨⟨targetYear, month, day⟩, weekdayName wd, Int.ofNat remaining⟩ ::
              oldLoop month rest
          else oldLoop month rest
        else oldLoop month rest
      | none => oldLoop month rest
    else oldLoop month rest

/-- Python `page_text.split('\n')` (keeps empty pieces). -/
def splitLines : List Char → List (List Char)
  | [] => [[]]
  | c :: cs =>
    match splitLines cs with
    | [] => [[]]
    | l :: ls => if c = '\n' then [] :: l :: ls else (c :: l) :: ls

/-- `github_monitor.GitHubActionsMonitor.parse_weekend_availability_old`. -/
def parse_weekend_availability_old (page_text : String) (month : Nat) :
    List AvRec :=
  oldLoop month (splitLines page_text.data)

/-! ## Enhanced parser (`github_monitor.parse_weekend_availability_enhanced`)

The Selenium-dependent extraction (`extract_visible_calendar_data`) is the
external fetcher; its output, a list of `{'day': ..., 'remaining': ...}`
entries, is the input of the pure filtering loop below (github_monitor.py
lines 194-222).
-/

/-- One entry of `calendar_data`. -/
structure Cell where
  day : Nat
  remaining : Int
deriving DecidableEq, Repr

/-- The filtering loop of `parse_weekend_availability_enhanced` over the
extracted calendar data. -/
def parse_enhanced_core (month : Nat) : List Cell → List AvRec
  | [] => []
  | c :: cs =>
    if c.remaining ≤ 0 then parse_enhanced_core month cs
    else if pyValidDate targetYear month c.day then
      let wd := pyWeekday targetYear month c.day
      if wd ∈ weekendDays then
        ⟨⟨targetYear, month, c.day⟩, weekdayName wd, c.remaining⟩ ::
          parse_enhanced_core month cs
      else parse_enhanced_core month cs
    else parse_enhanced_core month cs

/-! ## Observation sets and the diff engine
(`github_monitor.GitHubActionsMonitor.compare_states`, lines 335-391)
-/

/-- The nested per-run result structure: park name → month label →
record list (what `check_all_parks` returns and the state file stores). -/
abbrev St := ODict String (ODict String (List AvRec))

/-- One value of the flattened maps built in `compare_states`:
`{'park': ..., 'month': ..., 'date': ..., 'weekday': ..., 'remaining': ...}`. -/
structure FlatRec where
  park : String
  month : String
  date : YMD
  weekday : String
  remaining : Int
deriving DecidableEq, Repr

/-- An `updated` entry: `{**data, 'prev_remaining': ..., 'curr_remaining': ...}`. -/
structure URec where
  park : String
  month : String
  date : YMD
  weekday : String
  remaining : Int
  prev_remaining : Int
  curr_remaining : Int
deriving DecidableEq, Repr

/-- The flat key `f"{park_name}-{date_info['date']}"`. -/
def flatKey (park : String) (x : YMD) : String := park ++ "-" ++ dateStr x

def keyOfFlat (v : FlatRec) : String := flatKey v.park v.date

def mkFlat (park month : String) (r : AvRec) : FlatRec :=
  ⟨park, month, r.date, r.weekday, r.remaining⟩

def flattenRecs (park month : String) :
    List AvRec → ODict String FlatRec → ODict String FlatRec
  | [], acc => acc
  | r :: rest, acc =>
    flattenRecs park month rest
      (odSet acc (flatKey park r.date) (mkFlat park month r))

def flattenMonths (park : String) :
    ODict String (List AvRec) → ODict String FlatRec → ODict String FlatRec
  | [], acc => acc
  | (monthName, dates) :: rest, acc =>
    flattenMonths park rest (flattenRecs park monthName dates acc)

def flattenParks : St → ODict String FlatRec → ODict String FlatRec
  | [], acc => acc
  | (park, months) :: rest, acc =>
    flattenParks rest (flattenMonths park months acc)

/-- The `current_flat` / `previous_flat` construction of `compare_states`. -/
def flatten (s : St) : ODict String FlatRec := flattenParks s []

/-- Provenance of flattened entries: each one is either inherited from the
accumulator or comes from a record of the list, with its key built by
`flatKey`. -/
theorem mem_flattenRecs {park month : String} {rs : List AvRec}
    {acc : ODict String FlatRec} {kv : String × FlatRec}
    (h : kv ∈ flattenRecs park month rs acc) :
    kv ∈ acc ∨ ∃ r ∈ rs, kv = (flatKey park r.date, mkFlat park month r) := by
  induction rs generalizing acc with
  | nil => exact Or.inl h
  | cons r rest ih =>
    rcases ih h with h' | ⟨r', hr', he⟩
    · rcases mem_odSet h' with h'' | h''
      · exact Or.inl h''
      · exact Or.inr ⟨r, List.mem_cons_self r rest, h''⟩
    · exact Or.inr ⟨r', List.mem_cons_of_mem r hr', he⟩

theorem mem_flattenMonths {park : String}
    {ms : ODict String (List AvRec)} {acc : ODict String FlatRec}
    {kv : String × FlatRec} (h : kv ∈ flattenMonths park ms acc) :
    kv ∈ acc ∨ ∃ md ∈ ms, ∃ r ∈ md.2,
      kv = (flatKey park r.date, mkFlat park md.1 r) := by
  induction ms generalizing acc with
  | nil => exact Or.inl h
  | cons md rest ih =>
    obtain ⟨monthName, dates⟩ := md
    rcases ih h with h' | ⟨md', hmd', r', hr', he⟩
    · rcases mem_flattenRecs h' with h'' | ⟨r', hr', he⟩
      · exact Or.inl h''
      · exact Or.inr ⟨(monthName, dates), List.mem_cons_self _ rest, r', hr', he⟩
    · exact Or.inr ⟨md', List.mem_cons_of_mem _ hmd', r', hr', he⟩

theorem mem_flattenParks {s : St} {acc : ODict String FlatRec}
    {kv : String × FlatRec} (h : kv ∈ flattenParks s acc) :
    kv ∈ acc ∨ ∃ pm ∈ s, ∃ md ∈ pm.2, ∃ r ∈ md.2,
      kv = (flatKey pm.1 r.date, mkFlat pm.1 md.1 r) := by
  induction s generalizing acc with
  | nil => exact Or.inl h
  | cons pm rest ih =>
    obtain ⟨park, months⟩ := pm
    rcases ih h with h' | ⟨pm', hpm', md', hmd', r', hr', he⟩
    · rcases mem_flattenMonths h' with h'' | ⟨md', hmd', r', hr', he⟩
      · exact Or.inl h''
      · exact Or.inr ⟨(park, months), List.mem_cons_self _ rest, md', hmd', r', hr', he⟩
    · exact Or.inr ⟨pm', List.mem_cons_of_mem _ hpm', md', hmd', r', hr', he⟩

/-- Every entry of a flattened map carries its own key. -/
theorem flatten_key_eq {s : St} {kv : String × FlatRec}
    (h : kv ∈ flatten s) : kv.1 = keyOfFlat kv.2 := by
  rcases mem_flattenParks h with h' | ⟨pm, _, md, _, r, _, he⟩
  · simp at h'
  · subst he
    rfl

/-- Every entry of a flattened map names a park key of the nested input. -/
theorem flatten_park_mem {s : St} {kv : String × FlatRec}
    (h : kv ∈ flatten s) : kv.2.park ∈ odKeys s := by
  rcases mem_flattenParks h with h' | ⟨pm, hpm, md, _, r, _, he⟩
  · simp at h'
  · subst he
    exact List.mem_map_of_mem Prod.fst hpm

theorem keysNodup_flattenRecs {park month : String} {rs : List AvRec}
    {acc : ODict String FlatRec} (h : KeysNodup acc) :
    KeysNodup (flattenRecs park month rs acc) := by
  induction rs generalizing acc with
  | nil => exact h
  | cons r rest ih => exact ih (keysNodup_odSet _ _ h)

theorem keysNodup_flattenMonths {park : String}
    {ms : ODict String (List AvRec)} {acc : ODict String FlatRec}
    (h : KeysNodup acc) : KeysNodup (flattenMonths park ms acc) := by
  induction ms generalizing acc with
  | nil => exact h
  | cons md rest ih =>
    obtain ⟨monthName, dates⟩ := md
    exact ih (keysNodup_flattenRecs h)

theorem keysNodup_flattenParks {s : St} {acc : ODict String FlatRec}
    (h : KeysNodup acc) : KeysNodup (flattenParks s acc) := by
  induction s generalizing acc with
  | nil => exact h
  | cons pm rest ih =>
    obtain ⟨park, months⟩ := pm
    exact ih (keysNodup_flattenMonths h)

/-- The flattened maps have pairwise distinct keys by construction
(overwrite on repeated assignment). -/
theorem flatten_keysNodup (s : St) : KeysNodup (flatten s) :=
  keysNodup_flattenParks (by simp [KeysNodup])

/-- `changes[cat][park].append(r)` preceded by
`if park not in changes[cat]: changes[cat][park] = []`. -/
def addToCat {α : Type} (cat : ODict String (List α)) (park : String)
    (r : α) : ODict String (List α) :=
  match odLookup cat park with
  | none => odSet cat park [r]
  | some l => odSet cat park (l ++ [r])

def mkU (v : FlatRec) (prevRem : Int) : URec :=
  ⟨v.park, v.month, v.date, v.weekday, v.remaining, prevRem, v.remaining⟩

/-- `changes = {'new': {}, 'removed': {}, 'updated': {}}`. -/
structure Changes where
  new : ODict String (List FlatRec)
  removed : ODict String (List FlatRec)
  updated : ODict String (List URec)
deriving DecidableEq, Repr

/-- The first loop of `compare_states`: over `current_flat.items()`,
filling `new` and `updated`. -/
def newUpdLoop (pf : ODict String FlatRec) :
    List (String × FlatRec) → ODict String (List FlatRec) →
    ODict String (List URec) →
    ODict String (List FlatRec) × ODict String (List URec)
  | [], nw, up => (nw, up)
  | (k, v) :: rest, nw, up =>
    match odLookup pf k with
    | none => newUpdLoop pf rest (addToCat nw v.park v) up
    | some p =>
      if p.remaining ≠ v.remaining then
        newUpdLoop pf rest nw (addToCat up v.park (mkU v p.remaining))
      else newUpdLoop pf rest nw up

/-- The second loop of `compare_states`: over `previous_flat.items()`,
filling `removed`. -/
def removedLoop (cf : ODict String FlatRec) :
    List (String × FlatRec) → ODict String (List FlatRec) →
    ODict String (List FlatRec)
  | [], rm => rm
  | (k, v) :: rest, rm =>
    match odLookup cf k with
    | none => removedLoop cf rest (addToCat rm v.park v)
    | some _ => removedLoop cf rest rm

/-- `github_monitor.GitHubActionsMonitor.compare_states`. -/
def compare_states (previous_state current_results : St) : Changes :=
  let cf := flatten current_results
  let pf := flatten previous_state
  let nwup := newUpdLoop pf cf [] []
  ⟨nwup.1, removedLoop cf pf [], nwup.2⟩

/-- `any(changes.values())`. -/
def anyChangesB (c : Changes) : Bool :=
  !(c.new.isEmpty && c.removed.isEmpty && c.updated.isEmpty)

/-! ### Order-exact characterization of the three categories -/

/-- Append a selection to an optional list, `none` when both are empty. -/
def optExtend {α : Type} (o : Option (List α)) (s : List α) :
    Option (List α) :=
  match o, s with
  | none, [] => none
  | o, s => some (o.getD [] ++ s)

/-- `none` for the empty list, `some` otherwise. -/
def optList {α : Type} (l : List α) : Option (List α) :=
  if l.isEmpty then none else some l

theorem optExtend_nil {α : Type} (o : Option (List α)) :
    optExtend o [] = o := by
  cases o <;> simp [optExtend]

theorem optExtend_cons {α : Type} (o : Option (List α)) (a : α)
    (s : List α) : optExtend o (a :: s) = some (o.getD [] ++ a :: s) := by
  cases o <;> rfl

theorem optExtend_none {α : Type} (s : List α) :
    optExtend none s = optList s := by
  cases s <;> simp [optExtend, optList]

theorem optExtend_some {α : Type} (l : List α) (s : List α) :
    optExtend (some l) s = some (l ++ s) := by
  cases s <;> simp [optExtend]

theorem addToCat_lookup {α : Type} (cat : ODict String (List α))
    (p : String) (r : α) (q : String) :
    odLookup (addToCat cat p r) q =
      if q = p then some ((odLookup cat p).getD [] ++ [r])
      else odLookup cat q := by
  unfold addToCat
  cases h : odLookup cat p <;> simp [odLookup_odSet, h]

/-- The filter selecting a `new` entry of park `q` from `current_flat`. -/
def newSelF (pf : ODict String FlatRec) (q : String)
    (kv : String × FlatRec) : Bool :=
  (odLookup pf kv.1).isNone && kv.2.park == q

/-- The `new` entries of park `q`, in `current_flat` iteration order. -/
def newSel (pf : ODict String FlatRec) (l : List (String × FlatRec))
    (q : String) : List FlatRec :=
  (l.filter (newSelF pf q)).map Prod.snd

/-- The `updated` entry of park `q` produced by one `current_flat` item. -/
def updSelF (pf : ODict String FlatRec) (q : String)
    (kv : String × FlatRec) : Option URec :=
  match odLookup pf kv.1 with
  | none => none
  | some p =>
    if p.remaining ≠ kv.2.remaining ∧ kv.2.park = q then
      some (mkU kv.2 p.remaining)
    else none

/-- The `updated` entries of park `q`, in `current_flat` iteration order. -/
def updSel (pf : ODict String FlatRec) (l : List (String × FlatRec))
    (q : String) : List URec :=
  l.filterMap (updSelF pf q)

/-- The filter selecting a `removed` entry of park `q` from `previous_flat`. -/
def remSelF (cf : ODict String FlatRec) (q : String)
    (kv : String × FlatRec) : Bool :=
  (odLookup cf kv.1).isNone && kv.2.park == q

/-- The `removed` entries of park `q`, in `previous_flat` iteration order. -/
def remSel (cf : ODict String FlatRec) (l : List (String × FlatRec))
    (q : String) : List FlatRec :=
  (l.filter (remSelF cf q)).map Prod.snd

theorem newUpdLoop_fst_lookup (pf : ODict String FlatRec)
    (l : List (String × FlatRec)) (nw : ODict String (List FlatRec))
    (up : ODict String (List URec)) (q : String) :
    odLookup (newUpdLoop pf l nw up).1 q =
      optExtend (odLookup nw q) (newSel pf l q) := by
  induction l generalizing nw up with
  | nil => simp [newUpdLoop, newSel, optExtend_nil]
  | cons kv rest ih =>
    obtain ⟨k, v⟩ := kv
    cases hp : odLookup pf k with
    | none =>
      simp only [newUpdLoop, hp]
      rw [ih]
      have hsel : newSel pf ((k, v) :: rest) q =
          (if v.park == q then [v] else []) ++ newSel pf rest q := by
        by_cases hq : v.park == q
        · simp [newSel, List.filter_cons, newSelF, hp, hq]
        · simp [newSel, List.filter_cons, newSelF, hp, hq]
      rw [hsel, addToCat_lookup]
      by_cases hq : v.park = q
      · subst hq
        simp [optExtend_some, optExtend_cons]
      · have hq' : ¬ q = v.park := fun hh => hq hh.symm
        have hqb : ¬ (v.park == q) := by simpa using hq
        simp [hq', hqb]
    | some p =>
      have hsel : newSel pf ((k, v) :: rest) q = newSel pf rest q := by
        simp [newSel, List.filter_cons, newSelF, hp]
      by_cases hr : p.remaining ≠ v.remaining
      · simp only [newUpdLoop, hp, if_pos hr]
        rw [ih, hsel]
      · simp only [newUpdLoop, hp, if_neg hr]
        rw [ih, hsel]

theorem newUpdLoop_snd_lookup (pf : ODict String FlatRec)
    (l : List (String × FlatRec)) (nw : ODict String (List FlatRec))
    (up : ODict String (List URec)) (q : String) :
    odLookup (newUpdLoop pf l nw up).2 q =
      optExtend (odLookup up q) (updSel pf l q) := by
  induction l generalizing nw up with
  | nil => simp [newUpdLoop, updSel, optExtend_nil]
  | cons kv rest ih =>
    obtain ⟨k, v⟩ := kv
    cases hp : odLookup pf k with
    | none =>
      simp only [newUpdLoop, hp]
      rw [ih]
      have hsel : updSel pf ((k, v) :: rest) q = updSel pf rest q := by
        simp [updSel, List.filterMap_cons, updSelF, hp]
      rw [hsel]
    | some p =>
      by_cases hr : p.remaining ≠ v.remaining
      · simp only [newUpdLoop, hp, if_pos hr]
        rw [ih]
        by_cases hq : v.park = q
        · have hsel : updSel pf ((k, v) :: rest) q =
              mkU v p.remaining :: updSel pf rest q := by
            simp [updSel, List.filterMap_cons, updSelF, hp, hr, hq]
          rw [hsel, addToCat_lookup]
          subst hq
          simp [optExtend_some, optExtend_cons]
        · have hsel : updSel pf ((k, v) :: rest) q = updSel pf rest q := by
            simp [updSel, List.filterMap_cons, updSelF, hp, hr, hq]
          have hq' : ¬ q = v.park := fun hh => hq hh.symm
          rw [hsel, addToCat_lookup, if_neg hq']
      · simp only [newUpdLoop, hp, if_neg hr]
        rw [ih]
        have hsel : updSel pf ((k, v) :: rest) q = updSel pf rest q := by
          simp [updSel, List.filterMap_cons, updSelF, hp, hr]
        rw [hsel]

theorem removedLoop_lookup (cf : ODict String FlatRec)
    (l : List (String × FlatRec)) (rm : ODict String (List FlatRec))
    (q : String) :
    odLookup (removedLoop cf l rm) q =
      optExtend (odLookup rm q) (remSel cf l q) := by
  induction l generalizing rm with
  | nil => simp [removedLoop, remSel, optExtend_nil]
  | cons kv rest ih =>
    obtain ⟨k, v⟩ := kv
    cases hc : odLookup cf k with
    | none =>
      simp only [removedLoop, hc]
      rw [ih]
      have hsel : remSel cf ((k, v) :: rest) q =
          (if v.park == q then [v] else []) ++ remSel cf rest q := by
        by_cases hq : v.park == q
        · simp [remSel, List.filter_cons, remSelF, hc, hq]
        · simp [remSel, List.filter_cons, remSelF, hc, hq]
      rw [hsel, addToCat_lookup]
      by_cases hq : v.park = q
      · subst hq
        simp [optExtend_some, optExtend_cons]
      · have hq' : ¬ q = v.park := fun hh => hq hh.symm
        have hqb : ¬ (v.park == q) := by simpa using hq
        simp [hq', hqb]
    | some p =>
      simp only [removedLoop, hc]
      rw [ih]
      have hsel : remSel cf ((k, v) :: rest) q = remSel cf rest q := by
        simp [remSel, List.filter_cons, remSelF, hc]
      rw [hsel]

theorem compare_new_lookup (prev cur : St) (q : String) :
    odLookup (compare_states prev cur).new q =
      optList (newSel (flatten prev) (flatten cur) q) := by
  unfold compare_states
  simp only
  rw [newUpdLoop_fst_lookup]
  simp [odLookup, optExtend_none]

theorem compare_updated_lookup (prev cur : St) (q : String) :
    odLookup (compare_states prev cur).updated q =
      optList (updSel (flatten prev) (flatten cur) q) := by
  unfold compare_states
  simp only
  rw [newUpdLoop_snd_lookup]
  simp [odLookup, optExtend_none]

theorem compare_removed_lookup (prev cur : St) (q : String) :
    odLookup (compare_states prev cur).removed q =
      optList (remSel (flatten cur) (flatten prev) q) := by
  unfold compare_states
  simp only
  rw [removedLoop_lookup]
  simp [odLookup, optExtend_none]

/-! ## Notification policies

`monitor_all.send_comprehensive_report` reports the current availability
picture on every run with a non-empty per-park results dict
(`NotifyOnAvailability` in the specification), and
`github_monitor.run_single_check` / `send_change_notification` send a
message exactly when `any(changes.values())` (`NotifyOnChange`).
`datetime.now()` is passed in as `now`.
-/

def knpsUrl : String :=
  "https://reservation.knps.or.kr/eco/searchEcoMonthReservation.do"

/-- Whether any record exists anywhere in the nested results. -/
def hasAnyRecord (s : St) : Bool :=
  s.any (fun pm => pm.2.any (fun md => !md.2.isEmpty))

/-- The `available_parks` filter of `send_comprehensive_report`
(monitor_all.py lines 215-224). -/
def availableParks (s : St) : St :=
  s.filter (fun pm => pm.2.any (fun md => !md.2.isEmpty))

def dateLine (r : AvRec) : String :=
  "    • " ++ dateStr r.date ++ " (" ++ r.weekday ++ ") - 잔여 " ++
    toString r.remaining ++ "개\n"

def monthBlock (md : String × List AvRec) : String :=
  if md.2.isEmpty then "  📅 " ++ md.1 ++ ": 주말 예약 불가\n"
  else
    "  📅 " ++ md.1 ++ ": " ++ Nat.repr md.2.length ++ "개 주말 예약 가능\n" ++
      String.join (md.2.map dateLine)

def parkBlock (pm : String × ODict String (List AvRec)) : String :=
  "🏔️ <b>" ++ pm.1 ++ "</b>\n" ++ String.join (pm.2.map monthBlock) ++ "\n"

def noAvailMsg (now : String) : String :=
  "📊 <b>국립공원 예약 현황</b>\n\n🕐 체크 시간: " ++ now ++
    "\n\n❌ 현재 9월, 10월 주말에 예약 가능한 국립공원이 없습니다.\n\n다음 체크: 10분 후"

def detailMsg (parks : St) (now : String) : String :=
  "🎉 <b>국립공원 주말 예약 가능!</b>\n\n🕐 체크 시간: " ++ now ++ "\n\n" ++
    String.join (parks.map parkBlock) ++
    "🔗 <b>예약 링크:</b>\n" ++ knpsUrl ++
    "\n\n⚡ <b>빠른 예약을 권장합니다!</b>\n다음 체크: 10분 후"

/-- `monitor_all.ComprehensiveParkMonitor.send_comprehensive_report`
(lines 209-263): `None` models `return False` without a send attempt. -/
def send_comprehensive_report (all_results : St) (now : String) :
    Option String :=
  if all_results.isEmpty then none
  else if (availableParks all_results).isEmpty then some (noAvailMsg now)
  else some (detailMsg (availableParks all_results) now)

/-- `park_dates` accumulation of `send_change_notification`
(github_monitor.py lines 537-543). -/
def parkDatesConcat (months : ODict String (List AvRec)) : List AvRec :=
  months.foldl (fun acc md => if md.2.isEmpty then acc else acc ++ md.2) []

def gmDateLine (r : AvRec) : String :=
  "  • " ++ dateStr r.date ++ " (" ++ r.weekday ++ ") - 잔여 " ++
    toString r.remaining ++ "개\n"

def gmParkBlock (pm : String × ODict String (List AvRec)) : String :=
  if pm.2.any (fun md => !md.2.isEmpty) then
    "🏔️ " ++ pm.1 ++ "\n" ++
      String.join ((parkDatesConcat pm.2).map gmDateLine) ++ "\n"
  else ""

def totalAvailable (cur : St) : Nat :=
  (cur.map (fun pm => (pm.2.map (fun md => md.2.length)).sum)).sum

/-- The message text of `send_change_notification` (github_monitor.py
lines 525-556): it shows the **current** availability only. -/
def statusMessage (cur : St) (now : String) : String :=
  "🏞️ 국립공원 예약 현황 업데이트\n\n🕐 " ++ now ++
    " (UTC)\n\n📋 현재 예약 가능:\n\n" ++
    String.join (cur.map gmParkBlock) ++
    (if totalAvailable cur = 0 then "❌ 현재 예약 가능한 주말 없음\n\n"
     else "📊 총 " ++ Nat.repr (totalAvailable cur) ++
       "개 주말 날짜 예약 가능\n\n") ++
    "🔗 " ++ knpsUrl ++ "\n\n🤖 GitHub Actions 자동 모니터링"

/-- `github_monitor.send_change_notification` as dispatched by
`run_single_check` (lines 560-583): a message goes out iff
`any(changes.values())`. -/
def send_change_notification (changes : Changes) (current_results : St)
    (now : String) : Option String :=
  if anyChangesB changes then some (statusMessage current_results now)
  else none

/-! ## Orchestration (`check_all_parks`) and snapshot load -/

/-- The loop of `github_monitor.check_all_parks` (lines 506-518): `f` is
`check_park_availability`, which returns `{}` both on failure and when no
month page could be read; falsy results are not stored. -/
def checkAllLoop (f : String → ODict String (List AvRec)) :
    List String → St → St
  | [], acc => acc
  | p :: ps, acc =>
    checkAllLoop f ps (if (f p).isEmpty then acc else odSet acc p (f p))

/-- `github_monitor.GitHubActionsMonitor.check_all_parks`. -/
def check_all_parks (parks : List String)
    (f : String → ODict String (List AvRec)) : St :=
  checkAllLoop f parks []

/-- `github_monitor.GitHubActionsMonitor.load_previous_state`
(lines 290-303): `stored` is the state-file content when the file exists,
`decode` is `json.load`; any failure is caught.  The second component is
the log line the function emits. -/
def load_previous_state (stored : Option String)
    (decode : String → Except String St) : St × String :=
  match stored with
  | some s =>
    match decode s with
    | .ok state => (state, "이전 상태 로드됨: " ++ Nat.repr state.length ++ " 항목")
    | .error e => ([], "상태 파일 로드 실패: " ++ e)
  | none => ([], "첫 실행 - 이전 상태 없음")

/-! ## Supporting lemmas for the claim theorems -/

theorem optList_eq_some {α : Type} {s l : List α} (h : optList s = some l) :
    s = l := by
  unfold optList at h
  by_cases he : s.isEmpty
  · rw [if_pos he] at h
    exact absurd h (by simp)
  · rw [if_neg he] at h
    exact Option.some.inj h

theorem optList_eq_some_self {α : Type} {s : List α} {a : α} (h : a ∈ s) :
    optList s = some s := by
  unfold optList
  rw [if_neg]
  intro he
  rw [List.isEmpty_iff] at he
  subst he
  simp at h

theorem mem_newSel {pf : ODict String FlatRec}
    {l : List (String × FlatRec)} {q : String} {e : FlatRec} :
    e ∈ newSel pf l q ↔
      ∃ k, (k, e) ∈ l ∧ odLookup pf k = none ∧ e.park = q := by
  unfold newSel
  constructor
  · intro h
    rcases List.mem_map.mp h with ⟨kv, hkv, he⟩
    rcases List.mem_filter.mp hkv with ⟨hmem, hcond⟩
    unfold newSelF at hcond
    rw [Bool.and_eq_true] at hcond
    refine ⟨kv.1, ?_, ?_, ?_⟩
    · have : (kv.1, e) = kv := by
        rw [← he]
      rw [this]
      exact hmem
    · rw [← Option.isNone_iff_eq_none]
      exact hcond.1
    · rw [← he]
      exact eq_of_beq hcond.2
  · rintro ⟨k, hmem, hnone, hpark⟩
    refine List.mem_map.mpr ⟨(k, e), List.mem_filter.mpr ⟨hmem, ?_⟩, rfl⟩
    unfold newSelF
    simp [hnone, hpark]

theorem mem_remSel {cf : ODict String FlatRec}
    {l : List (String × FlatRec)} {q : String} {e : FlatRec} :
    e ∈ remSel cf l q ↔
      ∃ k, (k, e) ∈ l ∧ odLookup cf k = none ∧ e.park = q := by
  unfold remSel
  constructor
  · intro h
    rcases List.mem_map.mp h with ⟨kv, hkv, he⟩
    rcases List.mem_filter.mp hkv with ⟨hmem, hcond⟩
    unfold remSelF at hcond
    rw [Bool.and_eq_true] at hcond
    refine ⟨kv.1, ?_, ?_, ?_⟩
    · have : (kv.1, e) = kv := by
        rw [← he]
      rw [this]
      exact hmem
    · rw [← Option.isNone_iff_eq_none]
      exact hcond.1
    · rw [← he]
      exact eq_of_beq hcond.2
  · rintro ⟨k, hmem, hnone, hpark⟩
    refine List.mem_map.mpr ⟨(k, e), List.mem_filter.mpr ⟨hmem, ?_⟩, rfl⟩
    unfold remSelF
    simp [hnone, hpark]

theorem mem_updSel {pf : ODict String FlatRec}
    {l : List (String × FlatRec)} {q : String} {u : URec} :
    u ∈ updSel pf l q ↔
      ∃ k v p, (k, v) ∈ l ∧ odLookup pf k = some p ∧
        p.remaining ≠ v.remaining ∧ v.park = q ∧ u = mkU v p.remaining := by
  unfold updSel
  constructor
  · intro h
    rcases List.mem_filterMap.mp h with ⟨kv, hkv, hc⟩
    unfold updSelF at hc
    cases hp : odLookup pf kv.1 with
    | none => rw [hp] at hc; simp at hc
    | some p =>
      rw [hp] at hc
      have hc2 : (if p.remaining ≠ kv.2.remaining ∧ kv.2.park = q then
          some (mkU kv.2 p.remaining) else none) = some u := hc
      by_cases hcond : p.remaining ≠ kv.2.remaining ∧ kv.2.park = q
      · rw [if_pos hcond] at hc2
        refine ⟨kv.1, kv.2, p, hkv, hp, hcond.1, hcond.2,
          (Option.some.inj hc2).symm⟩
      · rw [if_neg hcond] at hc2
        simp at hc2
  · rintro ⟨k, v, p, hmem, hp, hne, hpark, he⟩
    refine List.mem_filterMap.mpr ⟨(k, v), hmem, ?_⟩
    unfold updSelF
    rw [hp]
    show (if p.remaining ≠ v.remaining ∧ v.park = q then
        some (mkU v p.remaining) else none) = some u
    rw [if_pos ⟨hne, hpark⟩, he]

/-- `mkU` leaves the identifying fields unchanged. -/
theorem mkU_park (v : FlatRec) (x : Int) : (mkU v x).park = v.park := rfl

theorem mkU_date (v : FlatRec) (x : Int) : (mkU v x).date = v.date := rfl

/-- Two flat keys built from `'-'`-free distinct park names differ,
whatever the dates: the park is recoverable as the text before the first
`'-'` of the key. -/
theorem append_dash_inj {l1 l2 r1 r2 : List Char}
    (h1 : '-' ∉ l1) (h2 : '-' ∉ l2)
    (h : l1 ++ '-' :: r1 = l2 ++ '-' :: r2) : l1 = l2 := by
  induction l1 generalizing l2 with
  | nil =>
    cases l2 with
    | nil => rfl
    | cons b t2 =>
      simp only [List.nil_append, List.cons_append, List.cons.injEq] at h
      exact absurd (h.1 ▸ List.mem_cons_self b t2) h2
  | cons a t1 ih =>
    cases l2 with
    | nil =>
      simp only [List.nil_append, List.cons_append, List.cons.injEq] at h
      exact absurd (h.1.symm ▸ List.mem_cons_self a t1) h1
    | cons b t2 =>
      simp only [List.cons_append, List.cons.injEq] at h
      have ht := ih (fun hm => h1 (List.mem_cons_of_mem a hm))
        (fun hm => h2 (List.mem_cons_of_mem b hm)) h.2
      rw [h.1, ht]

theorem flatKey_ne {p1 p2 : String} (h1 : '-' ∉ p1.data)
    (h2 : '-' ∉ p2.data) (hne : p1 ≠ p2) (d1 d2 : YMD) :
    flatKey p1 d1 ≠ flatKey p2 d2 := by
  intro he
  apply hne
  apply String.ext
  have hd := congrArg String.data he
  unfold flatKey at hd
  simp only [String.data_append] at hd
  rw [List.append_assoc, List.append_assoc] at hd
  exact append_dash_inj h1 h2 hd

theorem checkAllLoop_lookup_none {f : String → ODict String (List AvRec)}
    {ps : List String} {acc : St} {q : String}
    (hacc : odLookup acc q = none) (hq : f q = []) :
    odLookup (checkAllLoop f ps acc) q = none := by
  induction ps generalizing acc with
  | nil => exact hacc
  | cons p rest ih =>
    unfold checkAllLoop
    by_cases hp : (f p).isEmpty
    · rw [if_pos hp]
      exact ih hacc
    · rw [if_neg hp]
      apply ih
      rw [odLookup_odSet]
      by_cases hqp : q = p
      · subst hqp
        rw [hq] at hp
        simp at hp
      · rw [if_neg hqp]
        exact hacc

theorem checkAllLoop_keys_sub {f : String → ODict String (List AvRec)}
    {ps : List String} {acc : St} {q : String}
    (h : q ∈ odKeys (checkAllLoop f ps acc)) :
    q ∈ odKeys acc ∨ q ∈ ps := by
  induction ps generalizing acc with
  | nil => exact Or.inl h
  | cons p rest ih =>
    unfold checkAllLoop at h
    by_cases hp : (f p).isEmpty
    · rw [if_pos hp] at h
      rcases ih h with h' | h'
      · exact Or.inl h'
      · exact Or.inr (List.mem_cons_of_mem _ h')
    · rw [if_neg hp] at h
      rcases ih h with h' | h'
      · by_cases hmem : p ∈ odKeys acc
        · rw [odKeys_odSet_of_mem _ hmem] at h'
          exact Or.inl h'
        · rw [odKeys_odSet_of_not_mem _ hmem] at h'
          rcases List.mem_append.mp h' with h'' | h''
          · exact Or.inl h''
          · rw [List.mem_singleton] at h''
            subst h''
            exact Or.inr (List.mem_cons_self _ _)
      · exact Or.inr (List.mem_cons_of_mem _ h')

/-- Keys of a dictionary come with entries. -/
theorem exists_entry_of_mem_keys {α β : Type} {d : ODict α β} {k : α}
    (h : k ∈ odKeys d) : ∃ v, (k, v) ∈ d := by
  rcases List.mem_map.mp h with ⟨kv, hkv, he⟩
  exact ⟨kv.2, by rw [← he]; exact hkv⟩

/-! ## Claim theorems -/

/-- C9: `load_previous_state` returns the empty observation set and does
not raise, both when no persisted snapshot exists (first run) and when the
stored content cannot be decoded; in the corrupt case the failure is
logged as a non-fatal message and the run proceeds as a first run. -/
theorem C9_load_error_tolerance :
    (∀ decode : String → Except String St,
      load_previous_state none decode = ([], "첫 실행 - 이전 상태 없음")) ∧
    (∀ (decode : String → Except String St) (s e : String),
      decode s = .error e →
      load_previous_state (some s) decode =
        ([], "상태 파일 로드 실패: " ++ e)) := by
  constructor
  · intro decode
    rfl
  · intro decode s e h
    simp [load_previous_state, h]

theorem C9_witness :
    load_previous_state (some "not valid json")
        (fun _ => .error "Expecting value") =
      ([], "상태 파일 로드 실패: " ++ "Expecting value") :=
  C9_load_error_tolerance.2 (fun _ => .error "Expecting value")
    "not valid json" "Expecting value" rfl

/-- C2 fails on the code: with a current result set that contains a park
entry but not one availability record, `send_comprehensive_report` still
emits a message (the fixed "none available" status report), although the
claim demands silence whenever the current observation set is empty. -/
theorem C2_counterexample :
    (send_comprehensive_report [("북한산", [("9월", [])])] "t").isSome = true ∧
    hasAnyRecord [("북한산", [("9월", [])])] = false := by
  constructor <;> rfl

/-- C2 amended: `send_comprehensive_report` emits a message iff the
per-park results mapping is non-empty — regardless of whether any record
exists; when no record exists but the mapping is non-empty, the emitted
message is the fixed "none available" status report. -/
theorem C2_availability_policy_amended :
    (∀ (s : St) (now : String),
      (send_comprehensive_report s now).isSome = !s.isEmpty) ∧
    (∀ (s : St) (now : String),
      ¬ s.isEmpty = true → hasAnyRecord s = false →
      send_comprehensive_report s now = some (noAvailMsg now)) := by
  constructor
  · intro s now
    by_cases h : s.isEmpty
    · simp [send_comprehensive_report, h]
    · by_cases h2 : (availableParks s).isEmpty <;>
        simp [send_comprehensive_report, h, h2]
  · intro s now h1 h2
    have hap : (availableParks s).isEmpty = true := by
      rw [List.isEmpty_iff]
      unfold availableParks
      rw [List.filter_eq_nil_iff]
      intro pm hpm
      unfold hasAnyRecord at h2
      rw [List.any_eq_false] at h2
      exact fun hc => h2 pm hpm hc
    simp [send_comprehensive_report, h1, hap]

theorem C2_witness :
    send_comprehensive_report [("지리산", [("10월", [])])] "w" =
      some (noAvailMsg "w") :=
  C2_availability_policy_amended.2 [("지리산", [("10월", [])])] "w"
    (by decide) (by decide)

/-- The raw text used to refute C3: the same day appears in two raw
fragments, first with the larger remaining count. -/
def dupText : String :=
  "5\n금\n생활관 : 잔여 3 개\n5\n금\n생활관 : 잔여 2 개"

/-- C3 fails on the code: the parser performs no deduplication (and no
sort): a date occurring in two raw fragments yields two records, instead
of one record with the larger remaining count. -/
theorem C3_counterexample :
    parse_weekend_availability dupText 9 =
      [⟨⟨2025, 9, 5⟩, "금요일", 3⟩, ⟨⟨2025, 9, 5⟩, "금요일", 2⟩] ∧
    ¬ ((parse_weekend_availability dupText 9).map AvRec.date).Nodup := by
  constructor
  · rfl
  · decide

/-- The day-line candidates of the old parser: each line paired with its
forward window of nine lines (`range(i+1, min(len(lines), i+10))`), in
line-scan order. -/
def lineWindows : List (List Char) → List (List Char × List (List Char))
  | [] => []
  | l :: rest => (l, rest.take 9) :: lineWindows rest

/-- The record produced by one line of the old parser — if the line is a
bare day number, its forward window yields a remaining count, and the
date-validity, weekend and positivity filters pass. -/
def oldLineRec (month : Nat) (line : List Char)
    (window : List (List Char)) : Option AvRec :=
  if isDayLine line then
    match windowRemain window with
    | some remaining =>
      let day := digitsVal (pyStrip line)
      if pyValidDate targetYear month day then
        let wd := pyWeekday targetYear month day
        if wd ∈ weekendDays ∧ remaining > 0 then
          some ⟨⟨targetYear, month, day⟩, weekdayName wd, Int.ofNat remaining⟩
        else none
      else none
    | none => none
  else none

theorem oldLoop_eq_filterMap (month : Nat) (ls : List (List Char)) :
    oldLoop month ls =
      (lineWindows ls).filterMap (fun lw => oldLineRec month lw.1 lw.2) := by
  induction ls with
  | nil => rfl
  | cons line rest ih =>
    by_cases h1 : isDayLine line
    · cases hw : windowRemain (rest.take 9) with
      | none =>
        simp [oldLoop, oldLineRec, lineWindows, h1, hw, ih,
          List.filterMap_cons]
      | some remaining =>
        by_cases hvd : pyValidDate targetYear month (digitsVal (pyStrip line))
        · by_cases hcond :
            pyWeekday targetYear month (digitsVal (pyStrip line)) ∈
              weekendDays ∧ remaining > 0
          · simp [oldLoop, oldLineRec, lineWindows, h1, hw, hvd, hcond, ih,
              List.filterMap_cons]
          · simp [oldLoop, oldLineRec, lineWindows, h1, hw, hvd, hcond, ih,
              List.filterMap_cons]
        · simp [oldLoop, oldLineRec, lineWindows, h1, hw, hvd, ih,
            List.filterMap_cons]
    · simp [oldLoop, oldLineRec, lineWindows, h1, ih, List.filterMap_cons]

/-- C3 amended: neither parser deduplicates or sorts.  The regex parser
of `monitor_all` emits exactly one record per raw match that survives the
date-validity, weekend and positivity filters, in raw match order; the
line parser of `github_monitor` (`parse_weekend_availability_old`) emits
exactly one record per day-line whose forward window yields a remaining
count and that survives the same filters, in line-scan order.  A date
occurring in several raw fragments therefore occurs the same number of
times in the output. -/
theorem C3_match_order_amended :
    (∀ (text : String) (month : Nat),
      parse_weekend_availability text month =
        (findall text.data).filterMap (candToRec month)) ∧
    (∀ (text : String) (month : Nat),
      parse_weekend_availability_old text month =
        (lineWindows (splitLines text.data)).filterMap
          (fun lw => oldLineRec month lw.1 lw.2)) :=
  ⟨fun text month => parseLoop_eq_filterMap month (findall text.data),
   fun text month => oldLoop_eq_filterMap month (splitLines text.data)⟩

/-- C4: no record whose computed weekday falls outside the configured
weekend set `[4, 5]` ever appears in parser output — for the regex parser
of `monitor_all` and for the enhanced filtering loop of
`github_monitor`. -/
theorem C4_weekday_filter :
    (∀ (text : String) (month : Nat) (r : AvRec),
      r ∈ parse_weekend_availability text month →
      pyWeekday r.date.y r.date.m r.date.d ∈ weekendDays) ∧
    (∀ (month : Nat) (cal : List Cell) (r : AvRec),
      r ∈ parse_enhanced_core month cal →
      pyWeekday r.date.y r.date.m r.date.d ∈ weekendDays) := by
  constructor
  · intro text month r hr
    unfold parse_weekend_availability at hr
    rw [parseLoop_eq_filterMap] at hr
    rcases List.mem_filterMap.mp hr with ⟨c, _, hc⟩
    unfold candToRec at hc
    by_cases h1 : pyValidDate targetYear month c.1
    · rw [if_pos h1] at hc
      by_cases h2 : pyWeekday targetYear month c.1 ∈ weekendDays ∧ c.2.2 > 0
      · rw [if_pos h2] at hc
        rw [← Option.some.inj hc]
        exact h2.1
      · rw [if_neg h2] at hc
        simp at hc
    · rw [if_neg h1] at hc
      simp at hc
  · intro month cal r hr
    induction cal with
    | nil => simp [parse_enhanced_core] at hr
    | cons c cs ih =>
      unfold parse_enhanced_core at hr
      by_cases h0 : c.remaining ≤ 0
      · rw [if_pos h0] at hr
        exact ih hr
      · rw [if_neg h0] at hr
        by_cases h1 : pyValidDate targetYear month c.day
        · rw [if_pos h1] at hr
          by_cases h2 : pyWeekday targetYear month c.day ∈ weekendDays
          · rw [if_pos h2] at hr
            rcases List.mem_cons.mp hr with h | h
            · rw [h]
              exact h2
            · exact ih h
          · rw [if_neg h2] at hr
            exact ih hr
        · rw [if_neg h1] at hr
          exact ih hr

theorem C4_witness :
    pyWeekday 2025 9 5 ∈ weekendDays ∧ pyWeekday 2025 9 6 ∈ weekendDays := by
  constructor
  · exact C4_weekday_filter.1 "5\n금\n생활관 : 잔여 4 개" 9
      ⟨⟨2025, 9, 5⟩, "금요일", 4⟩ (by decide)
  · exact C4_weekday_filter.2 9 [⟨6, 2⟩] ⟨⟨2025, 9, 6⟩, "토요일", 2⟩
      (by decide)

/-- C5: every record in parser output has `remaining > 0` — for the regex
parser of `monitor_all` and for the enhanced filtering loop of
`github_monitor`. -/
theorem C5_positive_remaining :
    (∀ (text : String) (month : Nat) (r : AvRec),
      r ∈ parse_weekend_availability text month → r.remaining > 0) ∧
    (∀ (month : Nat) (cal : List Cell) (r : AvRec),
      r ∈ parse_enhanced_core month cal → r.remaining > 0) := by
  constructor
  · intro text month r hr
    unfold parse_weekend_availability at hr
    rw [parseLoop_eq_filterMap] at hr
    rcases List.mem_filterMap.mp hr with ⟨c, _, hc⟩
    unfold candToRec at hc
    by_cases h1 : pyValidDate targetYear month c.1
    · rw [if_pos h1] at hc
      by_cases h2 : pyWeekday targetYear month c.1 ∈ weekendDays ∧ c.2.2 > 0
      · rw [if_pos h2] at hc
        rw [← Option.some.inj hc]
        exact Int.ofNat_pos.mpr h2.2
      · rw [if_neg h2] at hc
        simp at hc
    · rw [if_neg h1] at hc
      simp at hc
  · intro month cal r hr
    induction cal with
    | nil => simp [parse_enhanced_core] at hr
    | cons c cs ih =>
      unfold parse_enhanced_core at hr
      by_cases h0 : c.remaining ≤ 0
      · rw [if_pos h0] at hr
        exact ih hr
      · rw [if_neg h0] at hr
        by_cases h1 : pyValidDate targetYear month c.day
        · rw [if_pos h1] at hr
          by_cases h2 : pyWeekday targetYear month c.day ∈ weekendDays
          · rw [if_pos h2] at hr
            rcases List.mem_cons.mp hr with h | h
            · rw [h]
              exact not_le.mp h0
            · exact ih h
          · rw [if_neg h2] at hr
            exact ih hr
        · rw [if_neg h1] at hr
          exact ih hr

theorem C5_witness :
    (⟨⟨2025, 9, 5⟩, "금요일", 4⟩ : AvRec).remaining > 0 ∧
    (⟨⟨2025, 9, 6⟩, "토요일", 2⟩ : AvRec).remaining > 0 := by
  constructor
  · exact C5_positive_remaining.1 "5\n금\n생활관 : 잔여 4 개" 9
      ⟨⟨2025, 9, 5⟩, "금요일", 4⟩ (by decide)
  · exact C5_positive_remaining.2 9 [⟨6, 2⟩] ⟨⟨2025, 9, 6⟩, "토요일", 2⟩
      (by decide)

theorem oldLoop_eq_nil {month : Nat} {ls : List (List Char)}
    (h : ∀ l ∈ ls, isDayLine l = false) : oldLoop month ls = [] := by
  induction ls with
  | nil => rfl
  | cons l rest ih =>
    have h0 := h l (List.mem_cons_self l rest)
    unfold oldLoop
    rw [h0]
    simp only [Bool.false_eq_true, if_false]
    exact ih fun l' hl' => h l' (List.mem_cons_of_mem _ hl')

/-- C8: the parsers never propagate a failure. They are total functions;
raw content in which the pattern finds no match yields `[]` (for the
regex parser of `monitor_all`) as does content without any bare day-number
line (for the line parser of `github_monitor`); and a candidate whose
`(year, month, day)` is rejected by `datetime` is dropped on its own,
leaving the records of all other candidates unchanged. -/
theorem C8_parser_error_handling :
    (∀ (text : String) (month : Nat), findall text.data = [] →
      parse_weekend_availability text month = []) ∧
    (∀ (month : Nat) (pre post : List Cand) (b : Cand),
      pyValidDate targetYear month b.1 = false →
      parseLoop month (pre ++ b :: post) = parseLoop month (pre ++ post)) ∧
    (∀ (text : String) (month : Nat),
      (∀ l ∈ splitLines text.data, isDayLine l = false) →
      parse_weekend_availability_old text month = []) := by
  refine ⟨?_, ?_, ?_⟩
  · intro text month h
    unfold parse_weekend_availability
    rw [h]
    rfl
  · intro month pre post b h
    rw [parseLoop_eq_filterMap, parseLoop_eq_filterMap]
    have hb : candToRec month b = none := by
      unfold candToRec
      rw [h]
      simp
    simp [List.filterMap_append, List.filterMap_cons, hb]
  · intro text month h
    unfold parse_weekend_availability_old
    exact oldLoop_eq_nil h

theorem C8_witness :
    parse_weekend_availability "no calendar content here" 9 = [] ∧
    parseLoop 9 [(31, '수', 2), (5, '금', 3)] = parseLoop 9 [(5, '금', 3)] ∧
    parse_weekend_availability_old "header\nfooter" 9 = [] :=
  ⟨C8_parser_error_handling.1 "no calendar content here" 9 (by decide),
   C8_parser_error_handling.2.1 9 [] [(5, '금', 3)] (31, '수', 2) (by decide),
   C8_parser_error_handling.2.2 "header\nfooter" 9 (by decide)⟩

def curEx6 : St := [("지리산", [("9월", [⟨⟨2025, 9, 12⟩, "금요일", 2⟩])])]

def chExA : Changes :=
  ⟨[], [("지리산", [⟨"지리산", "9월", ⟨2025, 9, 5⟩, "금요일", 3⟩])], []⟩

def chExB : Changes :=
  ⟨[("지리산", [⟨"지리산", "9월", ⟨2025, 9, 19⟩, "금요일", 1⟩])], [], []⟩

/-- C6 fails on the code: the message built by `send_change_notification`
shows only the current availability, never the diff categories — two
change sets with different `removed` contents produce the identical
message, so the message cannot enumerate the categories' entries. -/
theorem C6_counterexample :
    anyChangesB chExA = true ∧ anyChangesB chExB = true ∧
    chExA.removed ≠ chExB.removed ∧
    send_change_notification chExA curEx6 "t" =
      send_change_notification chExB curEx6 "t" := by
  refine ⟨rfl, rfl, by decide, rfl⟩

/-- C6 amended: a message is emitted iff at least one of `new`, `removed`,
`updated` is non-empty, but its content is the current availability
grouped by resource — it does not depend on the change set beyond the
emptiness test. -/
theorem C6_change_policy_amended :
    (∀ (c : Changes) (cur : St) (now : String),
      (send_change_notification c cur now).isSome = anyChangesB c) ∧
    (∀ (c c' : Changes) (cur : St) (now : String),
      anyChangesB c = true → anyChangesB c' = true →
      send_change_notification c cur now =
        send_change_notification c' cur now) := by
  constructor
  · intro c cur now
    by_cases h : anyChangesB c <;> simp [send_change_notification, h]
  · intro c c' cur now h h'
    simp [send_change_notification, h, h']

theorem C6_witness :
    send_change_notification
        ⟨[("가야산", [⟨"가야산", "9월", ⟨2025, 9, 5⟩, "금요일", 1⟩])], [], []⟩
        [] "u" =
      send_change_notification
        ⟨[], [],
         [("가야산", [⟨"가야산", "9월", ⟨2025, 9, 5⟩, "금요일", 2, 1, 2⟩])]⟩
        [] "u" :=
  C6_change_policy_amended.2 _ _ [] "u" (by decide) (by decide)

def curEx7 : St :=
  [("북한산",
    [("9월", [⟨⟨2025, 9, 19⟩, "금요일", 3⟩, ⟨⟨2025, 9, 5⟩, "금요일", 1⟩])])]

/-- C7 fails on the code: `compare_states` keeps the iteration order of
its inputs and never sorts: a current set listing September 19 before
September 5 yields `new` entries in that order, which is not ascending by
date. -/
theorem C7_counterexample :
    (odLookup (compare_states [] curEx7).new "북한산").map
        (List.map FlatRec.date) = some [⟨2025, 9, 19⟩, ⟨2025, 9, 5⟩] ∧
    ¬ ((⟨2025, 9, 19⟩ : YMD).d ≤ (⟨2025, 9, 5⟩ : YMD).d) := by
  refine ⟨by decide, by decide⟩

/-- C7 amended: within each category the entries of a park appear exactly
in the flattened iteration order of the corresponding input set (its
insertion order), unsorted: each category lookup equals the in-order
selection of the qualifying flattened entries.  The diff is a pure
function of the two inputs, so recomputation is reproducible. -/
theorem C7_iteration_order_amended (prev cur : St) (q : String) :
    odLookup (compare_states prev cur).new q =
      optList (newSel (flatten prev) (flatten cur) q) ∧
    odLookup (compare_states prev cur).updated q =
      optList (updSel (flatten prev) (flatten cur) q) ∧
    odLookup (compare_states prev cur).removed q =
      optList (remSel (flatten cur) (flatten prev) q) :=
  ⟨compare_new_lookup prev cur q, compare_updated_lookup prev cur q,
   compare_removed_lookup prev cur q⟩

/-- No entry for `(park, date)` anywhere in a flat-record category. -/
def NoFlatEntry (cat : ODict String (List FlatRec)) (park : String)
    (x : YMD) : Prop :=
  ∀ q l, odLookup cat q = some l → ∀ e ∈ l, ¬ (e.park = park ∧ e.date = x)

/-- No entry for `(park, date)` anywhere in the `updated` category. -/
def NoUpdEntry (cat : ODict String (List URec)) (park : String)
    (x : YMD) : Prop :=
  ∀ q l, odLookup cat q = some l → ∀ e ∈ l, ¬ (e.park = park ∧ e.date = x)

/-- C1: `compare_states` classifies every flattened key exactly as
specified: a key only in the current set contributes its record to
`new[park]`; a key in both sets with differing `remaining` contributes
exactly one entry to `updated[park]`, carrying the previous and current
values, and appears in no other category; a key in both sets with equal
`remaining` appears in no category; a key only in the previous set
contributes its record to `removed[park]`. -/
theorem C1_diff_classification (prev cur : St) (k : String) :
    (∀ r : FlatRec, (k, r) ∈ flatten cur →
      odLookup (flatten prev) k = none →
      ∃ l, odLookup (compare_states prev cur).new r.park = some l ∧
        r ∈ l) ∧
    (∀ r p : FlatRec, (k, r) ∈ flatten cur → (k, p) ∈ flatten prev →
      p.remaining ≠ r.remaining →
      (∃ l, odLookup (compare_states prev cur).updated r.park = some l ∧
        mkU r p.remaining ∈ l ∧
        ∀ e ∈ l, e.date = r.date → e = mkU r p.remaining) ∧
      NoFlatEntry (compare_states prev cur).new r.park r.date ∧
      NoFlatEntry (compare_states prev cur).removed r.park r.date) ∧
    (∀ r p : FlatRec, (k, r) ∈ flatten cur → (k, p) ∈ flatten prev →
      p.remaining = r.remaining →
      NoFlatEntry (compare_states prev cur).new r.park r.date ∧
      NoFlatEntry (compare_states prev cur).removed r.park r.date ∧
      NoUpdEntry (compare_states prev cur).updated r.park r.date) ∧
    (∀ p : FlatRec, (k, p) ∈ flatten prev →
      odLookup (flatten cur) k = none →
      ∃ l, odLookup (compare_states prev cur).removed p.park = some l ∧
        p ∈ l) := by
  have hcnd := flatten_keysNodup cur
  have hpnd := flatten_keysNodup prev
  refine ⟨?_, ?_, ?_, ?_⟩
  · intro r hmem hnone
    have hr : r ∈ newSel (flatten prev) (flatten cur) r.park :=
      mem_newSel.mpr ⟨k, hmem, hnone, rfl⟩
    refine ⟨newSel (flatten prev) (flatten cur) r.park, ?_, hr⟩
    rw [compare_new_lookup]
    exact optList_eq_some_self hr
  · intro r p hmemc hmemp hne
    have hk : k = keyOfFlat r := flatten_key_eq hmemc
    have hlp : odLookup (flatten prev) k = some p :=
      odLookup_eq_some_of_mem_nodup hpnd hmemp
    have hu : mkU r p.remaining ∈
        updSel (flatten prev) (flatten cur) r.park :=
      mem_updSel.mpr ⟨k, r, p, hmemc, hlp, hne, rfl, rfl⟩
    refine ⟨⟨updSel (flatten prev) (flatten cur) r.park, ?_, hu, ?_⟩,
      ?_, ?_⟩
    · rw [compare_updated_lookup]
      exact optList_eq_some_self hu
    · intro e hel hdate
      rcases mem_updSel.mp hel with ⟨k', v, p', hm', hl', hne', hpark', he'⟩
      have hdv : v.date = r.date := by
        rw [he'] at hdate
        exact hdate
      have hkk : k' = k := by
        have hkey : k' = keyOfFlat v := flatten_key_eq hm'
        rw [hkey, hk]
        unfold keyOfFlat flatKey
        rw [hpark', hdv]
      rw [hkk] at hm' hl'
      have hv : v = r := mem_value_unique_nodup hcnd hm' hmemc
      rw [hlp] at hl'
      have hp' : p' = p := (Option.some.inj hl').symm
      rw [he', hv, hp']
    · intro q l hq e hel
      rintro ⟨hpark, hdate⟩
      rw [compare_new_lookup] at hq
      rw [← optList_eq_some hq] at hel
      rcases mem_newSel.mp hel with ⟨ke, hmem_e, hnone_e, _⟩
      have hkek : ke = k := by
        have hkey : ke = keyOfFlat e := flatten_key_eq hmem_e
        rw [hkey, hk]
        unfold keyOfFlat flatKey
        rw [hpark, hdate]
      rw [hkek, hlp] at hnone_e
      exact absurd hnone_e (by simp)
    · intro q l hq e hel
      rintro ⟨hpark, hdate⟩
      rw [compare_removed_lookup] at hq
      rw [← optList_eq_some hq] at hel
      rcases mem_remSel.mp hel with ⟨ke, hmem_e, hnone_e, _⟩
      have hkek : ke = k := by
        have hkey : ke = keyOfFlat e := flatten_key_eq hmem_e
        rw [hkey, hk]
        unfold keyOfFlat flatKey
        rw [hpark, hdate]
      rw [hkek] at hnone_e
      have hs := odLookup_isSome_of_mem hmemc
      rw [hnone_e] at hs
      simp at hs
  · intro r p hmemc hmemp heq
    have hk : k = keyOfFlat r := flatten_key_eq hmemc
    have hlp : odLookup (flatten prev) k = some p :=
      odLookup_eq_some_of_mem_nodup hpnd hmemp
    refine ⟨?_, ?_, ?_⟩
    · intro q l hq e hel
      rintro ⟨hpark, hdate⟩
      rw [compare_new_lookup] at hq
      rw [← optList_eq_some hq] at hel
      rcases mem_newSel.mp hel with ⟨ke, hmem_e, hnone_e, _⟩
      have hkek : ke = k := by
        have hkey : ke = keyOfFlat e := flatten_key_eq hmem_e
        rw [hkey, hk]
        unfold keyOfFlat flatKey
        rw [hpark, hdate]
      rw [hkek, hlp] at hnone_e
      exact absurd hnone_e (by simp)
    · intro q l hq e hel
      rintro ⟨hpark, hdate⟩
      rw [compare_removed_lookup] at hq
      rw [← optList_eq_some hq] at hel
      rcases mem_remSel.mp hel with ⟨ke, hmem_e, hnone_e, _⟩
      have hkek : ke = k := by
        have hkey : ke = keyOfFlat e := flatten_key_eq hmem_e
        rw [hkey, hk]
        unfold keyOfFlat flatKey
        rw [hpark, hdate]
      rw [hkek] at hnone_e
      have hs := odLookup_isSome_of_mem hmemc
      rw [hnone_e] at hs
      simp at hs
    · intro q l hq e hel
      rintro ⟨hpark, hdate⟩
      rw [compare_updated_lookup] at hq
      rw [← optList_eq_some hq] at hel
      rcases mem_updSel.mp hel with ⟨ke, v, p', hm', hl', hne', hpark', he'⟩
      have hdv : v.date = r.date := by
        rw [he'] at hdate
        exact hdate
      have hpv : v.park = r.park := by
        rw [he'] at hpark
        exact hpark
      have hkek : ke = k := by
        have hkey : ke = keyOfFlat v := flatten_key_eq hm'
        rw [hkey, hk]
        unfold keyOfFlat flatKey
        rw [hpv, hdv]
      rw [hkek] at hm' hl'
      have hv : v = r := mem_value_unique_nodup hcnd hm' hmemc
      rw [hlp] at hl'
      have hp' : p' = p := (Option.some.inj hl').symm
      subst hv
      subst hp'
      exact hne' heq
  · intro p hmemp hnone
    have hp : p ∈ remSel (flatten cur) (flatten prev) p.park :=
      mem_remSel.mpr ⟨k, hmemp, hnone, rfl⟩
    refine ⟨remSel (flatten cur) (flatten prev) p.park, ?_, hp⟩
    rw [compare_removed_lookup]
    exact optList_eq_some_self hp

def prevW1 : St :=
  [("설악산", [("9월",
    [⟨⟨2025, 9, 5⟩, "금요일", 2⟩, ⟨⟨2025, 9, 12⟩, "금요일", 3⟩,
     ⟨⟨2025, 9, 26⟩, "금요일", 7⟩])])]

def curW1 : St :=
  [("설악산", [("9월",
    [⟨⟨2025, 9, 5⟩, "금요일", 5⟩, ⟨⟨2025, 9, 19⟩, "금요일", 1⟩,
     ⟨⟨2025, 9, 26⟩, "금요일", 7⟩])])]

theorem C1_witness :
    (∃ l, odLookup (compare_states prevW1 curW1).new "설악산" = some l ∧
      (⟨"설악산", "9월", ⟨2025, 9, 19⟩, "금요일", 1⟩ : FlatRec) ∈ l) ∧
    (∃ l, odLookup (compare_states prevW1 curW1).updated "설악산" = some l ∧
      mkU ⟨"설악산", "9월", ⟨2025, 9, 5⟩, "금요일", 5⟩ 2 ∈ l ∧
      ∀ e ∈ l,
        e.date = (⟨"설악산", "9월", ⟨2025, 9, 5⟩, "금요일", 5⟩ : FlatRec).date →
        e = mkU ⟨"설악산", "9월", ⟨2025, 9, 5⟩, "금요일", 5⟩ 2) ∧
    (∃ l, odLookup (compare_states prevW1 curW1).removed "설악산" = some l ∧
      (⟨"설악산", "9월", ⟨2025, 9, 12⟩, "금요일", 3⟩ : FlatRec) ∈ l) := by
  refine ⟨?_, ?_, ?_⟩
  · exact (C1_diff_classification prevW1 curW1
      (flatKey "설악산" ⟨2025, 9, 19⟩)).1
      ⟨"설악산", "9월", ⟨2025, 9, 19⟩, "금요일", 1⟩ (by decide) (by decide)
  · exact ((C1_diff_classification prevW1 curW1
      (flatKey "설악산" ⟨2025, 9, 5⟩)).2.1
      ⟨"설악산", "9월", ⟨2025, 9, 5⟩, "금요일", 5⟩
      ⟨"설악산", "9월", ⟨2025, 9, 5⟩, "금요일", 2⟩
      (by decide) (by decide) (by decide)).1
  · exact (C1_diff_classification prevW1 curW1
      (flatKey "설악산" ⟨2025, 9, 12⟩)).2.2.2
      ⟨"설악산", "9월", ⟨2025, 9, 12⟩, "금요일", 3⟩ (by decide) (by decide)

/-- C10: a park whose availability check yields the empty result (also
the failure marker of `check_park_availability`) is omitted entirely from
the current results, so every record for it in the previous state is
classified as `removed` by the diff — a fetch or parse failure is
indistinguishable from the availability vanishing. -/
theorem C10_failed_park_removed (parks : List String)
    (f : String → ODict String (List AvRec)) (park0 : String) (prev : St)
    (h0 : park0 ∈ parks) (hf : f park0 = [])
    (hdash : ∀ p ∈ parks, '-' ∉ p.data) :
    odLookup (check_all_parks parks f) park0 = none ∧
    ∀ (k : String) (p : FlatRec), (k, p) ∈ flatten prev → p.park = park0 →
      ∃ l, odLookup
          (compare_states prev (check_all_parks parks f)).removed park0 =
        some l ∧ p ∈ l := by
  have homit : odLookup (check_all_parks parks f) park0 = none :=
    checkAllLoop_lookup_none rfl hf
  refine ⟨homit, ?_⟩
  intro k p hmemp hpark
  have hk : k = keyOfFlat p := flatten_key_eq hmemp
  have hnone : odLookup (flatten (check_all_parks parks f)) k = none := by
    rw [odLookup_eq_none_iff]
    intro hkmem
    rcases exists_entry_of_mem_keys hkmem with ⟨v, hv⟩
    have hkv : k = keyOfFlat v := flatten_key_eq hv
    have hvpark_mem : v.park ∈ odKeys (check_all_parks parks f) :=
      flatten_park_mem hv
    have hvparks : v.park ∈ parks := by
      rcases checkAllLoop_keys_sub hvpark_mem with h' | h'
      · simp at h'
      · exact h'
    have hvne : v.park ≠ park0 := by
      intro he
      rw [he] at hvpark_mem
      rw [odLookup_eq_none_iff] at homit
      exact homit hvpark_mem
    have hneq : flatKey v.park v.date ≠ flatKey park0 p.date :=
      flatKey_ne (hdash v.park hvparks) (hdash park0 h0) hvne v.date p.date
    apply hneq
    have h1 : keyOfFlat v = keyOfFlat p := by
      rw [← hkv, hk]
    unfold keyOfFlat flatKey at h1
    rw [← hpark]
    exact h1
  have hp : p ∈ remSel (flatten (check_all_parks parks f))
      (flatten prev) park0 :=
    mem_remSel.mpr ⟨k, hmemp, hnone, hpark⟩
  refine ⟨remSel (flatten (check_all_parks parks f)) (flatten prev) park0,
    ?_, hp⟩
  rw [compare_removed_lookup]
  exact optList_eq_some_self hp

def parksW : List String := ["한려해상", "무등산"]

def fW : String → ODict String (List AvRec) := fun p =>
  if p = "무등산" then [("9월", [⟨⟨2025, 9, 6⟩, "토요일", 2⟩])] else []

def prevW10 : St :=
  [("한려해상", [("9월", [⟨⟨2025, 9, 5⟩, "금요일", 3⟩])])]

theorem C10_witness :
    odLookup (check_all_parks parksW fW) "한려해상" = none ∧
    ∃ l, odLookup
        (compare_states prevW10 (check_all_parks parksW fW)).removed
          "한려해상" = some l ∧
      (⟨"한려해상", "9월", ⟨2025, 9, 5⟩, "금요일", 3⟩ : FlatRec) ∈ l := by
  have h := C10_failed_park_removed parksW fW "한려해상" prevW10
    (by decide) (by decide) (by decide)
  exact ⟨h.1, h.2 (flatKey "한려해상" ⟨2025, 9, 5⟩)
    ⟨"한려해상", "9월", ⟨2025, 9, 5⟩, "금요일", 3⟩ (by decide) rfl⟩

end KNPS
